import Mathlib

/-!
Verification of the financial metrics core of `financial_dashboard.py`.

The numeric pipeline of the dashboard is embedded over exact rationals
(`ℚ`); the only real-valued steps are the square roots appearing in the
standard deviation, the annualization factor `sqrt 252`, and the Pearson
correlation denominator, which live in `ℝ` via `Real.sqrt`.  The pandas/NumPy
missing values (`NaN`, produced by `pct_change`'s first row, by `std()` on
fewer than two points, by `min()` of an empty series and by reindexing a
series onto a label it does not contain) are modelled as `Option.none`.
-/

/-- Embeds `df['Close'].pct_change()`: first row is `NaN` (`none`), row `k+1`
holds `(p[k+1] - p[k]) / p[k]`.  Empty input gives an empty series. -/
def pct_change : List ℚ → List (Option ℚ)
  | [] => []
  | x :: xs => none :: (List.zipWith (fun a b => some ((b - a) / a)) (x :: xs) xs)

/-- Embeds `Series.dropna()` on a series of optional values. -/
def dropna (l : List (Option ℚ)) : List ℚ := l.filterMap id

/-- Embeds `df['Close'].pct_change().dropna()` (source lines 118, 272, 433). -/
def daily_returns (p : List ℚ) : List ℚ := dropna (pct_change p)

/-- Embeds `Series.mean()`: sum divided by length (`0` on the empty list,
which is only ever used under a nonemptiness guard). -/
def listMean (l : List ℚ) : ℚ := l.sum / l.length

/-- Sum of squared deviations from the mean, `Σ (x - mean)²`. -/
def ssq (l : List ℚ) : ℚ := (l.map (fun t => (t - listMean l) ^ 2)).sum

/-- Sample variance with the `N-1` denominator pandas `Series.std()` uses. -/
def sampleVar (l : List ℚ) : ℚ := ssq l / ((l.length : ℚ) - 1)

/-- Embeds pandas `Series.std()` (sample standard deviation, `ddof = 1`):
`NaN` (`none`) on fewer than two points. -/
noncomputable def pdStd (l : List ℚ) : Option ℝ :=
  if 2 ≤ l.length then some (Real.sqrt (sampleVar l)) else none

/-- The 2% annualized risk-free rate constant of the source. -/
def risk_free_rate : ℚ := 2 / 100

/-- Embeds `Series.cumprod()` via an accumulator. -/
def cumprodAux (acc : ℚ) : List ℚ → List ℚ
  | [] => []
  | x :: xs => (acc * x) :: cumprodAux (acc * x) xs

/-- Embeds `(…).cumprod()`: running products of the list. -/
def cumprod (l : List ℚ) : List ℚ := cumprodAux 1 l

/-- Running maxima continuing from an already-seen maximum `acc`. -/
def expandingMaxAux (acc : ℚ) : List ℚ → List ℚ
  | [] => []
  | x :: xs => (max acc x) :: expandingMaxAux (max acc x) xs

/-- Embeds `Series.expanding().max()`: elementwise running maximum. -/
def expandingMax : List ℚ → List ℚ
  | [] => []
  | x :: xs => expandingMaxAux x (x :: xs)

/-- The drawdown series of source lines 129-131: cumulative wealth
`(1 + r).cumprod()`, its running maximum, and `(W - M) / M` elementwise. -/
def drawdowns (r : List ℚ) : List ℚ :=
  let c := cumprod (r.map (fun x => 1 + x))
  List.zipWith (fun w m => (w - m) / m) c (expandingMax c)

/-- The record returned by `calculate_metrics` (source lines 134-140).
Fields that the source can only produce as `NaN` are `Option`-valued. -/
structure Metrics where
  current_price : ℚ
  total_return : ℚ
  volatility : Option ℝ
  sharpe_ratio : Option ℝ
  max_drawdown : Option ℚ

/-- Embeds `calculate_metrics` (source lines 108-143): `None` on a missing or
empty frame, otherwise the metrics record.  `df['Close'].iloc[0]` is the list
head, `iloc[-1]` the last element. -/
noncomputable def calculate_metrics : Option (List ℚ) → Option Metrics
  | none => none
  | some [] => none
  | some (x :: xs) =>
    let r := daily_returns (x :: xs)
    some
      { current_price := (x :: xs).getLast (List.cons_ne_nil x xs)
        total_return := ((x :: xs).getLast (List.cons_ne_nil x xs) - x) / x * 100
        volatility := (pdStd r).map (fun s => s * Real.sqrt 252 * 100)
        sharpe_ratio :=
          match pdStd r with
          | none => none
          | some s =>
            if s = 0 then some 0
            else some (((listMean (r.map (fun t => t - risk_free_rate / 252)) : ℚ) : ℝ)
              / s * Real.sqrt 252)
        max_drawdown := (drawdowns r).min?.map (fun d => d * 100) }

theorem filterMap_id_zipWith_some (f : ℚ → ℚ → ℚ) :
    ∀ u v : List ℚ,
      (List.zipWith (fun a b => some (f a b)) u v).filterMap id = List.zipWith f u v := by
  intro u
  induction u with
  | nil => intro v; simp
  | cons a u ih =>
    intro v
    cases v with
    | nil => simp
    | cons b v => simp [List.filterMap_cons, ih]

/-- The derived return series is exactly the list of consecutive fractional
changes. -/
theorem daily_returns_eq_zipWith (p : List ℚ) :
    daily_returns p = List.zipWith (fun a b => (b - a) / a) p p.tail := by
  cases p with
  | nil => rfl
  | cons x xs =>
    simp only [daily_returns, pct_change, dropna, List.filterMap_cons, List.tail_cons,
      id_eq]
    exact filterMap_id_zipWith_some (fun a b => (b - a) / a) (x :: xs) xs

/-! ### The portfolio tab (source lines 295-342)

A price series with its timestamp index is a list of (timestamp, close)
pairs.  `portfolio_returns[ticker] = df['Close'].pct_change()` builds a
DataFrame whose index is the FIRST assigned column's index; each later
column is the new series reindexed onto that index (labels the series lacks
become `NaN`).  `mean(axis=1)` skips `NaN` entries row by row. -/

/-- Percentage change on a timestamp-indexed series: the index is kept, the
values are those of `pct_change` on the closes. -/
def pct_changeT (s : List (ℕ × ℚ)) : List (ℕ × Option ℚ) :=
  List.zip (s.map Prod.fst) (pct_change (s.map Prod.snd))

/-- Label lookup used by pandas reindexing: the value at timestamp `t`, or
`none` when `t` is not in the series (missing label becomes `NaN`). -/
def lookupT (w : List (ℕ × Option ℚ)) (t : ℕ) : Option ℚ :=
  match w.find? (fun q => q.1 == t) with
  | none => none
  | some q => q.2

/-- The DataFrame index: the first ticker's timestamps (source line 298,
first column assignment fixes the index). -/
def dfIndex (sl : List (List (ℕ × ℚ))) : List ℕ :=
  match sl with
  | [] => []
  | s :: _ => s.map Prod.fst

/-- The DataFrame columns: each ticker's `pct_change` series reindexed onto
the frame index. -/
def dfColumns (sl : List (List (ℕ × ℚ))) : List (List (Option ℚ)) :=
  sl.map (fun s => (dfIndex sl).map (lookupT (pct_changeT s)))

/-- Row mean with pandas default `skipna=True`: mean of the present
values, `NaN` when the whole row is missing. -/
def rowMean (row : List (Option ℚ)) : Option ℚ :=
  let vals := row.filterMap id
  if vals = [] then none else some (vals.sum / vals.length)

/-- Embeds `portfolio_returns['Portfolio'] = portfolio_returns.mean(axis=1)`
(source line 301) as a timestamp-indexed series over the frame index. -/
def portfolio_series (sl : List (List (ℕ × ℚ))) : List (ℕ × Option ℚ) :=
  (dfIndex sl).map (fun t => (t, rowMean (sl.map (fun s => lookupT (pct_changeT s) t))))

/-- The `Portfolio` column values. -/
def portfolioCol (sl : List (List (ℕ × ℚ))) : List (Option ℚ) :=
  (portfolio_series sl).map Prod.snd

/-- Embeds `portfolio_returns['Portfolio'].dropna()` (source line 331). -/
def portfolio_daily (sl : List (List (ℕ × ℚ))) : List ℚ :=
  dropna (portfolioCol sl)

/-- Cumulative product with pandas default `skipna=True`: `NaN` cells stay
`NaN`, the running product continues across them. -/
def cumprodSkipnaAux (acc : ℚ) : List (Option ℚ) → List (Option ℚ)
  | [] => []
  | none :: xs => none :: cumprodSkipnaAux acc xs
  | some x :: xs => some (acc * x) :: cumprodSkipnaAux (acc * x) xs

/-- Embeds `(cumulative_returns['Portfolio'].iloc[-1] - 1) * 100` where
`cumulative_returns = (1 + portfolio_returns).cumprod()` (source lines
302, 332); `none` when the last cell is `NaN` or the frame is empty. -/
def portfolio_total_return (sl : List (List (ℕ × ℚ))) : Option ℚ :=
  match (cumprodSkipnaAux 1 ((portfolioCol sl).map (Option.map (fun x => 1 + x)))).getLast? with
  | some (some v) => some ((v - 1) * 100)
  | _ => none

/-- Embeds `portfolio_daily.std() * np.sqrt(252) * 100` (source line 333). -/
noncomputable def portfolio_volatility (sl : List (List (ℕ × ℚ))) : Option ℝ :=
  (pdStd (portfolio_daily sl)).map (fun s => s * Real.sqrt 252 * 100)

/-- Embeds the portfolio Sharpe ratio with its zero-std guard (source lines
335-337). -/
noncomputable def portfolio_sharpe (sl : List (List (ℕ × ℚ))) : Option ℝ :=
  match pdStd (portfolio_daily sl) with
  | none => none
  | some s =>
    if s = 0 then some 0
    else some (((listMean ((portfolio_daily sl).map (fun t => t - risk_free_rate / 252)) : ℚ) : ℝ)
      / s * Real.sqrt 252)

/-- Embeds the portfolio max drawdown (source lines 339-342). -/
def portfolio_max_dd (sl : List (List (ℕ × ℚ))) : Option ℚ :=
  (drawdowns (portfolio_daily sl)).min?.map (fun d => d * 100)

/-! ### Risk tab: VaR and correlation (source lines 351, 432-434) -/

/-- Outcome of a numpy call that can raise: either a numeric value, or an
uncaught exception.  This is distinct from the Absent/`none` marker used for
pandas `NaN` results: an exception aborts the surrounding computation. -/
inductive NpResult where
  | raised : NpResult
  | val : ℚ → NpResult
  deriving DecidableEq

/-- Embeds `np.percentile(l, q)` with the default linear interpolation
between closest ranks: sort ascending, take `h = (n-1) * q / 100`, and
interpolate between ranks `⌊h⌋` and `⌊h⌋ + 1`.  On an empty array
`np.percentile` RAISES (an IndexError), modelled as `NpResult.raised`. -/
def np_percentile (l : List ℚ) (q : ℚ) : NpResult :=
  match l with
  | [] => .raised
  | _ =>
    let s := l.mergeSort (fun a b => a ≤ b)
    let h : ℚ := ((l.length - 1 : ℕ) : ℚ) * q / 100
    let j : ℕ := (Int.floor h).toNat
    let lo := s.getD j 0
    .val (lo + (h - Int.floor h) * (s.getD (j + 1) lo - lo))

/-- Embeds `var_95 = np.percentile(daily_returns, 5) * 100` (source lines
433-434).  The source has no guard and no try/except around this call, so
an exception from `np.percentile` propagates: the `* 100` line never runs. -/
def var_95 (p : List ℚ) : NpResult :=
  match np_percentile (daily_returns p) 5 with
  | .raised => .raised
  | .val v => .val (v * 100)

/-- The rows over which pandas computes a pairwise Pearson correlation: the
positions where both columns hold a value. -/
def pairRows (x y : List (Option ℚ)) : List (ℚ × ℚ) :=
  (x.zip y).filterMap (fun ab => ab.1.bind (fun a => ab.2.map (fun b => (a, b))))

/-- Sum of products of deviations `Σ (a - ā)(b - b̄)` over paired rows. -/
def sxy (ps : List (ℚ × ℚ)) : ℚ :=
  (ps.map (fun ab =>
    (ab.1 - listMean (ps.map Prod.fst)) * (ab.2 - listMean (ps.map Prod.snd)))).sum

/-- The pandas pairwise Pearson coefficient of two columns: `Σ(a-ā)(b-b̄)`
over `sqrt(Σ(a-ā)² * Σ(b-b̄)²)`, `NaN` when the denominator vanishes
(constant column, or no complete pair of rows). -/
noncomputable def pearson (x y : List (Option ℚ)) : Option ℝ :=
  let ps := pairRows x y
  let den : ℝ := Real.sqrt ((ssq (ps.map Prod.fst) * ssq (ps.map Prod.snd) : ℚ) : ℝ)
  if den = 0 then none else some (((sxy ps : ℚ) : ℝ) / den)

/-- Embeds `portfolio_returns.drop('Portfolio', axis=1).corr()` (source line
351) as an entry function on column positions. -/
noncomputable def correlation (sl : List (List (ℕ × ℚ))) (i j : ℕ) : Option ℝ :=
  pearson ((dfColumns sl).getD i []) ((dfColumns sl).getD j [])

theorem daily_returns_length (p : List ℚ) :
    (daily_returns p).length = p.length - 1 := by
  rw [daily_returns_eq_zipWith, List.length_zipWith, List.length_tail]
  omega

/-- C2: for every price series of length ≥ 2 the derived return series has
length input length − 1 and its k-th value is `(p[k+1] - p[k]) / p[k]`; for
length 0 or 1 the return series is empty. -/
theorem compute_returns_spec (p : List ℚ) :
    (daily_returns p).length = p.length - 1 ∧
    (∀ k, k + 1 < p.length →
      (daily_returns p).getD k 0 = (p.getD (k + 1) 0 - p.getD k 0) / p.getD k 0) ∧
    (p.length ≤ 1 → daily_returns p = []) := by
  refine ⟨?_, ?_, ?_⟩
  · exact daily_returns_length p
  · intro k hk
    have hlen : k < (List.zipWith (fun a b => (b - a) / a) p p.tail).length := by
      rw [List.length_zipWith, List.length_tail]; omega
    have hk1 : k + 1 < p.length := hk
    have hk0 : k < p.length := by omega
    rw [daily_returns_eq_zipWith,
      List.getD_eq_getElem _ _ hlen, List.getElem_zipWith,
      List.getElem_tail, List.getD_eq_getElem _ _ hk1, List.getD_eq_getElem _ _ hk0]
  · intro h
    match p, h with
    | [], _ => rfl
    | [x], _ => rfl

/-- C2 witness at the concrete prices `[100, 110, 121]`. -/
theorem compute_returns_spec_witness :
    (daily_returns [100, 110, 121]).length = 2 ∧
    (daily_returns [100, 110, 121]).getD 0 0 =
      (([100, 110, 121].getD 1 0 : ℚ) - [100, 110, 121].getD 0 0) / [100, 110, 121].getD 0 0 :=
  ⟨(compute_returns_spec [100, 110, 121]).1,
    (compute_returns_spec [100, 110, 121]).2.1 0 (by decide)⟩

/-- C7: the metrics summarisation returns `none` exactly when the input frame
is missing or empty; any nonempty price list yields a summary record. -/
theorem calculate_metrics_absent_iff (od : Option (List ℚ)) :
    calculate_metrics od = none ↔ od = none ∨ od = some [] := by
  cases od with
  | none => simp [calculate_metrics]
  | some p =>
    cases p with
    | nil => simp [calculate_metrics]
    | cons x xs => simp [calculate_metrics]

/-- C10: `total_return` depends only on the first and last close price. -/
theorem total_return_endpoints_only (p q : List ℚ) (hp : p ≠ []) (hq : q ≠ [])
    (hh : p.head hp = q.head hq) (hl : p.getLast hp = q.getLast hq) :
    (calculate_metrics (some p)).map Metrics.total_return =
      (calculate_metrics (some q)).map Metrics.total_return := by
  match p, q with
  | x :: xs, y :: ys =>
    have hh' : x = y := by simpa using hh
    subst hh'
    have hl' : (x :: xs).getLast (List.cons_ne_nil x xs) =
        (x :: ys).getLast (List.cons_ne_nil x ys) := hl
    simp [calculate_metrics, hl']

/-- C10 witness: two series sharing endpoints but different interiors. -/
theorem total_return_endpoints_only_witness :
    (calculate_metrics (some [100, 50, 110])).map Metrics.total_return =
      (calculate_metrics (some [100, 110])).map Metrics.total_return :=
  total_return_endpoints_only [100, 50, 110] [100, 110]
    (by decide) (by decide) (by decide) (by decide)

theorem daily_returns_nonempty_ne_nil {p : List ℚ} (h : 1 ≤ (daily_returns p).length) :
    p ≠ [] := by
  intro hp
  subst hp
  simp [daily_returns, pct_change, dropna] at h

/-- C4: with at least two returns the reported annualized volatility is the
sample standard deviation (`N-1` denominator) times `sqrt 252` times `100`;
with fewer than two returns it is the `NaN`/Absent marker, never a number. -/
theorem volatility_spec (p : List ℚ) :
    (2 ≤ (daily_returns p).length →
      (calculate_metrics (some p)).map Metrics.volatility =
        some (some (Real.sqrt ((sampleVar (daily_returns p) : ℚ) : ℝ) *
          Real.sqrt 252 * 100))) ∧
    ((daily_returns p).length < 2 → p ≠ [] →
      (calculate_metrics (some p)).map Metrics.volatility = some none) := by
  constructor
  · intro h2
    have hp : p ≠ [] := daily_returns_nonempty_ne_nil (by omega)
    match p, hp with
    | x :: xs, _ =>
      simp [calculate_metrics, pdStd, if_pos h2]
  · intro h2 hp
    match p, hp with
    | x :: xs, _ =>
      have : ¬ 2 ≤ (daily_returns (x :: xs)).length := by omega
      simp [calculate_metrics, pdStd, if_neg this]

/-- C4 witness at `[100, 110, 121]` (two returns). -/
theorem volatility_spec_witness :
    (calculate_metrics (some [100, 110, 121])).map Metrics.volatility =
      some (some (Real.sqrt ((sampleVar (daily_returns [100, 110, 121]) : ℚ) : ℝ) *
        Real.sqrt 252 * 100)) :=
  (volatility_spec [100, 110, 121]).1 (by decide)

/-- C3: whenever the sample standard deviation of the return series is
defined (≥ 2 returns), the Sharpe ratio is `mean(r - 0.02/252) / stddev(r) *
sqrt 252` when that standard deviation is nonzero and exactly `0` when it is
zero (the division-by-zero guard). -/
theorem sharpe_ratio_spec (p : List ℚ) (h2 : 2 ≤ (daily_returns p).length) :
    (Real.sqrt ((sampleVar (daily_returns p) : ℚ) : ℝ) ≠ 0 →
      (calculate_metrics (some p)).map Metrics.sharpe_ratio =
        some (some (((listMean ((daily_returns p).map (fun t => t - 2 / 100 / 252)) : ℚ) : ℝ) /
          Real.sqrt ((sampleVar (daily_returns p) : ℚ) : ℝ) * Real.sqrt 252))) ∧
    (Real.sqrt ((sampleVar (daily_returns p) : ℚ) : ℝ) = 0 →
      (calculate_metrics (some p)).map Metrics.sharpe_ratio = some (some 0)) := by
  have hp : p ≠ [] := daily_returns_nonempty_ne_nil (by omega)
  constructor
  · intro hs
    match p, hp with
    | x :: xs, _ =>
      simp [calculate_metrics, pdStd, if_pos h2, if_neg hs, risk_free_rate]
  · intro hs
    match p, hp with
    | x :: xs, _ =>
      simp [calculate_metrics, pdStd, if_pos h2, if_pos hs]

/-- C3 witness: `[100, 110, 121]` has the constant return series
`[1/10, 1/10]`, so the zero-variance guard fires and the Sharpe ratio is 0. -/
theorem sharpe_ratio_spec_witness :
    (calculate_metrics (some [100, 110, 121])).map Metrics.sharpe_ratio = some (some 0) :=
  (sharpe_ratio_spec [100, 110, 121] (by decide)).2
    (by
      have h : sampleVar (daily_returns [100, 110, 121]) = 0 := by
        rw [daily_returns_eq_zipWith]
        simp only [List.tail_cons, List.zipWith_cons_cons, List.zipWith_nil_right]
        norm_num [sampleVar, ssq, listMean]
      rw [h]
      simp)

/-! ### Drawdown facts (claim C5) -/

/-- The drawdown entries past the first, with `acc` the running maximum seen
so far. -/
def ddAux (acc : ℚ) (l : List ℚ) : List ℚ :=
  List.zipWith (fun w m => (w - m) / m) l (expandingMaxAux acc l)

instance : Std.Antisymm (fun a b : ℚ => a ≤ b) :=
  ⟨fun h h' => le_antisymm h h'⟩

theorem min?_eq_some_iff_q {m : ℚ} {l : List ℚ} :
    l.min? = some m ↔ m ∈ l ∧ ∀ b ∈ l, m ≤ b :=
  List.min?_eq_some_iff (fun a => le_refl a) (fun a b => min_choice a b)
    (fun _ _ _ => le_min_iff)

theorem ddAux_cons (acc x : ℚ) (xs : List ℚ) :
    ddAux acc (x :: xs) = (x - max acc x) / max acc x :: ddAux (max acc x) xs := rfl

theorem ddAux_le_zero (l : List ℚ) :
    ∀ acc : ℚ, 0 < acc → (∀ x ∈ l, 0 < x) → ∀ d ∈ ddAux acc l, d ≤ 0 := by
  induction l with
  | nil => intro acc _ _ d hd; simp [ddAux] at hd
  | cons x xs ih =>
    intro acc hacc hpos d hd
    rw [ddAux_cons] at hd
    have hx : 0 < x := hpos x (by simp)
    have hm : 0 < max acc x := lt_max_of_lt_left hacc
    rcases List.mem_cons.1 hd with hd | hd
    · exact hd ▸ div_nonpos_iff.2 (Or.inr ⟨sub_nonpos.2 (le_max_right acc x), le_of_lt hm⟩)
    · exact ih (max acc x) hm (fun y hy => hpos y (by simp [hy])) d hd

theorem ddAux_all_zero_iff (l : List ℚ) :
    ∀ acc : ℚ, 0 < acc → (∀ x ∈ l, 0 < x) →
      ((∀ d ∈ ddAux acc l, d = 0) ↔ List.Chain (· ≤ ·) acc l) := by
  induction l with
  | nil => intro acc _ _; simp [ddAux]
  | cons x xs ih =>
    intro acc hacc hpos
    have hx : 0 < x := hpos x (by simp)
    have hm : 0 < max acc x := lt_max_of_lt_left hacc
    have hhead : (x - max acc x) / max acc x = 0 ↔ acc ≤ x := by
      rw [div_eq_zero_iff]
      constructor
      · rintro (h | h)
        · exact max_eq_right_iff.1 (sub_eq_zero.1 h).symm
        · exact absurd h (ne_of_gt hm)
      · intro h
        left
        rw [max_eq_right h, sub_self]
    rw [ddAux_cons, List.chain_cons]
    constructor
    · intro h
      have h1 : acc ≤ x := hhead.1 (h _ (by simp))
      refine ⟨h1, ?_⟩
      have := (ih (max acc x) hm (fun y hy => hpos y (by simp [hy]))).1
        (fun d hd => h d (by simp [hd]))
      rwa [max_eq_right h1] at this
    · rintro ⟨h1, h2⟩
      intro d hd
      rcases List.mem_cons.1 hd with hd | hd
      · exact hd ▸ hhead.2 h1
      · exact (ih (max acc x) hm (fun y hy => hpos y (by simp [hy]))).2
          (by rwa [max_eq_right h1]) d hd

theorem cumprodAux_pos (l : List ℚ) :
    ∀ acc : ℚ, 0 < acc → (∀ x ∈ l, 0 < x) → ∀ y ∈ cumprodAux acc l, 0 < y := by
  induction l with
  | nil => intro acc _ _ y hy; simp [cumprodAux] at hy
  | cons x xs ih =>
    intro acc hacc hpos y hy
    have hx : 0 < x := hpos x (by simp)
    rcases List.mem_cons.1 hy with hy | hy
    · exact hy ▸ mul_pos hacc hx
    · exact ih (acc * x) (mul_pos hacc hx) (fun z hz => hpos z (by simp [hz])) y hy

theorem returns_one_add_pos (p : List ℚ) (hp : ∀ x ∈ p, 0 < x) :
    ∀ y ∈ daily_returns p, 0 < 1 + y := by
  induction p with
  | nil => intro y hy; simp [daily_returns, pct_change, dropna] at hy
  | cons x xs ih =>
    intro y hy
    rw [daily_returns_eq_zipWith] at hy
    cases xs with
    | nil => simp at hy
    | cons z zs =>
      simp only [List.tail_cons, List.zipWith_cons_cons] at hy
      have hx : 0 < x := hp x (by simp)
      have hz : 0 < z := hp z (by simp)
      rcases List.mem_cons.1 hy with hy | hy
      · have : 1 + (z - x) / x = z / x := by field_simp
        rw [hy, this]
        exact div_pos hz hx
      · have := ih (fun t ht => hp t (by simp [ht])) y
        rw [daily_returns_eq_zipWith] at this
        exact this (by simpa using hy)

/-- C5 counterexample: on a one-point price series the return series is
empty and the source computes `drawdown.min()` of an empty series, which is
`NaN` (Absent), not the `0` the claim asserts. -/
theorem max_drawdown_empty_cex :
    (calculate_metrics (some [100])).map Metrics.max_drawdown = some none ∧
    (calculate_metrics (some [100])).map Metrics.max_drawdown ≠ some (some 0) := by
  have h : (calculate_metrics (some [100])).map Metrics.max_drawdown = some none := by
    simp [calculate_metrics, drawdowns, daily_returns, pct_change, dropna,
      cumprod, cumprodAux, expandingMax]
  exact ⟨h, by rw [h]; intro hc; simp at hc⟩

/-- C5 (amended): for a price series with ≥ 2 positive closes (nonempty
return series) the max drawdown is ≤ 0 and is 0 iff the cumulative wealth
index is non-decreasing; for a one-point series (empty return series) the
field is the `NaN`/Absent marker rather than 0. -/
theorem max_drawdown_spec (p : List ℚ) (hp : ∀ x ∈ p, 0 < x) :
    (2 ≤ p.length →
      ∃ d, (calculate_metrics (some p)).map Metrics.max_drawdown = some (some d) ∧
        d ≤ 0 ∧
        (d = 0 ↔ List.Chain' (· ≤ ·)
          (cumprod ((daily_returns p).map (fun t => 1 + t))))) ∧
    (p.length = 1 → (calculate_metrics (some p)).map Metrics.max_drawdown = some none) := by
  constructor
  · intro h2
    match p, hp, h2 with
    | x :: xs, hp, h2 =>
      have hlen : (daily_returns (x :: xs)).length = (x :: xs).length - 1 :=
        daily_returns_length _
      have hrne : daily_returns (x :: xs) ≠ [] := by
        intro h
        have h0 : (daily_returns (x :: xs)).length = 0 := by rw [h]; rfl
        rw [hlen] at h0
        simp only [List.length_cons] at h0 h2
        omega
      have hwpos : ∀ y ∈ (daily_returns (x :: xs)).map (fun t => 1 + t), 0 < y := by
        intro y hy
        obtain ⟨t, ht, rfl⟩ := List.mem_map.1 hy
        exact returns_one_add_pos (x :: xs) hp t ht
      obtain ⟨w₀, w', hwl⟩ :
          ∃ w₀ w', (daily_returns (x :: xs)).map (fun t => 1 + t) = w₀ :: w' := by
        cases h : (daily_returns (x :: xs)).map (fun t => 1 + t) with
        | nil => exact absurd (List.map_eq_nil_iff.1 h) hrne
        | cons a l => exact ⟨a, l, rfl⟩
      have hc : cumprod ((daily_returns (x :: xs)).map (fun t => 1 + t)) =
          (1 * w₀) :: cumprodAux (1 * w₀) w' := by
        rw [hwl]; rfl
      have hc0pos : 0 < 1 * w₀ := by
        have := hwpos w₀ (by rw [hwl]; exact List.mem_cons_self w₀ w')
        simpa using this
      have hcpos : ∀ y ∈ cumprodAux (1 * w₀) w', 0 < y :=
        cumprodAux_pos w' (1 * w₀) hc0pos
          (fun z hz => hwpos z (by rw [hwl]; exact List.mem_cons_of_mem _ hz))
      have hdd : drawdowns (daily_returns (x :: xs)) =
          0 :: ddAux (1 * w₀) (cumprodAux (1 * w₀) w') := by
        simp only [drawdowns]
        rw [hc]
        show List.zipWith _ _ (expandingMaxAux (1 * w₀) ((1 * w₀) :: cumprodAux (1 * w₀) w')) = _
        rw [expandingMaxAux, max_self]
        simp only [List.zipWith_cons_cons, sub_self, zero_div]
        rfl
      cases hmin : (0 :: ddAux (1 * w₀) (cumprodAux (1 * w₀) w')).min? with
      | none =>
        exact absurd hmin (by simp [List.min?_cons])
      | some m =>
        obtain ⟨hmem, hle⟩ := min?_eq_some_iff_q.1 hmin
        have hm0 : m ≤ 0 := hle 0 (List.mem_cons_self _ _)
        have hdle : ∀ b ∈ ddAux (1 * w₀) (cumprodAux (1 * w₀) w'), b ≤ 0 :=
          ddAux_le_zero _ _ hc0pos hcpos
        refine ⟨m * 100, ?_, ?_, ?_⟩
        · simp only [calculate_metrics, Option.map_some]
          rw [hdd, hmin]
          rfl
        · exact mul_nonpos_iff.2 (Or.inr ⟨hm0, by norm_num⟩)
        · constructor
          · intro hd0
            have hm0' : m = 0 := by
              rcases mul_eq_zero.1 hd0 with h | h
              · exact h
              · exact absurd h (by norm_num)
            have hall : ∀ b ∈ ddAux (1 * w₀) (cumprodAux (1 * w₀) w'), b = 0 :=
              fun b hb => le_antisymm (hdle b hb)
                (hm0' ▸ hle b (List.mem_cons_of_mem _ hb))
            have hchain : List.Chain (· ≤ ·) (1 * w₀) (cumprodAux (1 * w₀) w') :=
              (ddAux_all_zero_iff _ _ hc0pos hcpos).1 hall
            rw [hc]
            exact hchain
          · intro hch
            rw [hc] at hch
            have hchain : List.Chain (· ≤ ·) (1 * w₀) (cumprodAux (1 * w₀) w') := hch
            have hall := (ddAux_all_zero_iff _ _ hc0pos hcpos).2 hchain
            have hm0' : m = 0 := by
              rcases List.mem_cons.1 hmem with h | h
              · exact h
              · exact hall m h
            rw [hm0', zero_mul]
  · intro h1
    match p, h1 with
    | [x], _ =>
      simp [calculate_metrics, drawdowns, daily_returns, pct_change, dropna,
        cumprod, cumprodAux, expandingMax]

/-- C5 witness at prices `[100, 110, 99]` (a genuine drawdown). -/
theorem max_drawdown_spec_witness :
    ∃ d, (calculate_metrics (some [100, 110, 99])).map Metrics.max_drawdown = some (some d) ∧
      d ≤ 0 ∧
      (d = 0 ↔ List.Chain' (· ≤ ·)
        (cumprod ((daily_returns [100, 110, 99]).map (fun t => 1 + t)))) :=
  (max_drawdown_spec [100, 110, 99] (by decide)).1 (by decide)

/-! ### Value at Risk (claim C6) -/

/-- Linear interpolation between the closest ranks of a sorted sample: the
claim-side reading of the standard percentile definition. -/
def lerpRank (s : List ℚ) (h : ℚ) : ℚ :=
  let j := (Int.floor h).toNat
  let lo := s.getD j 0
  lo + (h - Int.floor h) * (s.getD (j + 1) lo - lo)

/-- C6 counterexample: on a one-point price series the return series is
empty and `np.percentile` raises an uncaught IndexError (source lines
432-434 carry no guard and no try/except), so the operation raises — it does
not signal Absent, and the claim's Absent-rather-than-raising clause fails. -/
theorem var_95_raises_cex :
    var_95 [100] = NpResult.raised ∧ ∀ v : ℚ, var_95 [100] ≠ NpResult.val v :=
  ⟨rfl, fun _ h => NpResult.noConfusion h⟩

/-- C6 (amended): for a nonempty return series the 95%-confidence VaR is the
5th percentile (linear interpolation between closest ranks on an ascending
sort of the return series) times 100; with 0 return points the operation
raises (numpy IndexError, uncaught in the source), rather than signalling
Absent or returning a number. -/
theorem var_95_spec (p : List ℚ) :
    (daily_returns p = [] → var_95 p = NpResult.raised) ∧
    (daily_returns p ≠ [] →
      ∃ s : List ℚ, s.Perm (daily_returns p) ∧ s.Sorted (· ≤ ·) ∧
        var_95 p = NpResult.val (lerpRank s
          ((((daily_returns p).length - 1 : ℕ) : ℚ) * 5 / 100) * 100)) := by
  constructor
  · intro h
    rw [var_95, h]
    rfl
  · intro h
    refine ⟨(daily_returns p).mergeSort (fun a b => a ≤ b), List.mergeSort_perm _ _, ?_, ?_⟩
    · have htrans : ∀ a b c : ℚ, decide (a ≤ b) = true → decide (b ≤ c) = true →
          decide (a ≤ c) = true := fun _ _ _ hab hbc =>
        decide_eq_true (le_trans (of_decide_eq_true hab) (of_decide_eq_true hbc))
      have htotal : ∀ a b : ℚ, (decide (a ≤ b) || decide (b ≤ a)) = true := by
        intro a b
        rcases le_total a b with h | h <;> simp [h]
      have hs := @List.sorted_mergeSort ℚ (fun a b => decide (a ≤ b)) htrans htotal
        (daily_returns p)
      exact List.Pairwise.imp (fun hab => of_decide_eq_true hab) hs
    · match hr : daily_returns p, h with
      | r₀ :: rt, _ =>
        rw [var_95, hr]
        rfl

/-- C6 witness at `[100, 110]`: one return `1/10`, VaR `10`. -/
theorem var_95_spec_witness :
    ∃ s : List ℚ, s.Perm (daily_returns [100, 110]) ∧ s.Sorted (· ≤ ·) ∧
      var_95 [100, 110] = NpResult.val (lerpRank s
        ((((daily_returns [100, 110]).length - 1 : ℕ) : ℚ) * 5 / 100) * 100) :=
  (var_95_spec [100, 110]).2 (by decide)

/-! ### Portfolio alignment (claims C1 and C8) -/

theorem pct_change_length (l : List ℚ) : (pct_change l).length = l.length := by
  cases l with
  | nil => rfl
  | cons x xs =>
    simp only [pct_change, List.length_cons, List.length_zipWith]
    omega

theorem pct_changeT_fst (s : List (ℕ × ℚ)) :
    (pct_changeT s).map Prod.fst = s.map Prod.fst := by
  rw [pct_changeT, List.map_fst_zip]
  simp [pct_change_length]

theorem pct_changeT_snd (s : List (ℕ × ℚ)) :
    (pct_changeT s).map Prod.snd = pct_change (s.map Prod.snd) := by
  rw [pct_changeT, List.map_snd_zip]
  simp [pct_change_length]

theorem lookupT_cons_self (a : ℕ × Option ℚ) (rest : List (ℕ × Option ℚ)) :
    lookupT (a :: rest) a.1 = a.2 := by
  simp [lookupT, List.find?_cons_of_pos]

theorem lookupT_cons_ne (a : ℕ × Option ℚ) (rest : List (ℕ × Option ℚ)) (t : ℕ)
    (h : a.1 ≠ t) : lookupT (a :: rest) t = lookupT rest t := by
  simp only [lookupT]
  rw [List.find?_cons_of_neg]
  simpa using h

theorem lookupT_getD (w : List (ℕ × Option ℚ)) :
    ∀ k, (w.map Prod.fst).Nodup → k < w.length →
      lookupT w ((w.map Prod.fst).getD k 0) = (w.map Prod.snd).getD k none := by
  induction w with
  | nil => intro k _ hk; simp at hk
  | cons a rest ih =>
    intro k hnd hk
    match k with
    | 0 =>
      simpa using lookupT_cons_self a rest
    | Nat.succ k =>
      have hk' : k < rest.length := by simpa using hk
      have hklen : k < (rest.map Prod.fst).length := by simpa using hk'
      have hnd' : (a.1 :: rest.map Prod.fst).Nodup := by
        rw [List.map_cons] at hnd
        exact hnd
      have hmem : (rest.map Prod.fst).getD k 0 ∈ rest.map Prod.fst := by
        rw [List.getD_eq_getElem _ _ hklen]
        exact List.getElem_mem hklen
      have hne : a.1 ≠ (rest.map Prod.fst).getD k 0 := by
        intro he
        have hnotin : a.1 ∉ rest.map Prod.fst := (List.nodup_cons.1 hnd').1
        rw [he] at hnotin
        exact hnotin hmem
      simp only [List.map_cons, List.getD_cons_succ]
      rw [lookupT_cons_ne a rest _ hne]
      exact ih k (List.nodup_cons.1 hnd').2 hk'

theorem getD_map_of_lt {α β : Type} (f : α → β) (l : List α) (k : ℕ)
    (hk : k < l.length) (d : β) (d' : α) :
    (l.map f).getD k d = f (l.getD k d') := by
  rw [List.getD_eq_getElem _ _ (by simpa using hk), List.getD_eq_getElem _ _ hk,
    List.getElem_map]

theorem pct_change_getD (l : List ℚ) (k : ℕ) (hk : k + 1 < l.length) :
    (pct_change l).getD (k + 1) none =
      some ((l.getD (k + 1) 0 - l.getD k 0) / l.getD k 0) := by
  match l, hk with
  | x :: xs, hk =>
    simp only [pct_change, List.getD_cons_succ]
    have hk1 : k + 1 < (x :: xs).length := hk
    have hlen : k < (List.zipWith (fun a b => some ((b - a) / a)) (x :: xs) xs).length := by
      rw [List.length_zipWith]
      simp only [List.length_cons] at hk1 ⊢
      omega
    have hxs : k < xs.length := by
      simp only [List.length_cons] at hk1
      omega
    have hx0 : k < (x :: xs).length := by
      simp only [List.length_cons] at hk1 ⊢
      omega
    rw [List.getD_eq_getElem _ _ hlen, List.getElem_zipWith,
      List.getD_eq_getElem xs 0 hxs, List.getD_eq_getElem (x :: xs) 0 hx0]

theorem filterMap_id_map_some (l : List ℚ) : (l.map some).filterMap id = l := by
  induction l with
  | nil => rfl
  | cons a t iht =>
    simp only [List.map_cons, List.filterMap_cons, id_eq]
    rw [iht]

theorem rowMean_all_some (l : List ℚ) (hne : l ≠ []) :
    rowMean (l.map some) = some (listMean l) := by
  simp only [rowMean, filterMap_id_map_some, listMean]
  rw [if_neg hne]

/-- C1 counterexample: tickers `A` (timestamps 0,1,2) and `B` (timestamps
0,1 only).  Timestamp 2 is missing from `B`, yet the portfolio series keeps
it with the numeric value `1/10` (the mean over the single present
constituent), instead of dropping it as the inner-join claim requires. -/
theorem portfolio_inner_join_cex :
    (2 ∉ ([(0, 100), (1, 105)] : List (ℕ × ℚ)).map Prod.fst) ∧
    portfolio_series [[(0, 100), (1, 110), (2, 121)], [(0, 100), (1, 105)]] =
      [(0, none), (1, some (3 / 40)), (2, some (1 / 10))] := by
  constructor
  · decide
  · simp [portfolio_series, dfIndex, pct_changeT, pct_change, lookupT, rowMean,
      List.find?]
    norm_num

/-- C1 (amended): when every constituent series carries exactly the first
ticker's (duplicate-free) timestamps, the portfolio value at each timestamp
after the first equals the arithmetic mean of all N constituents' returns
there.  (With misaligned series the code instead averages over whichever
constituents are present at each timestamp of the first ticker's index — see
the counterexample.) -/
theorem portfolio_mean_aligned (s₀ : List (ℕ × ℚ)) (rest : List (List (ℕ × ℚ)))
    (hal : ∀ s ∈ s₀ :: rest, s.map Prod.fst = s₀.map Prod.fst)
    (hnd : (s₀.map Prod.fst).Nodup) (i : ℕ) (hi : i + 1 < s₀.length) :
    (portfolioCol (s₀ :: rest)).getD (i + 1) none =
      some (listMean ((s₀ :: rest).map (fun s =>
        ((s.map Prod.snd).getD (i + 1) 0 - (s.map Prod.snd).getD i 0) /
          (s.map Prod.snd).getD i 0))) := by
  have hcol : portfolioCol (s₀ :: rest) =
      (s₀.map Prod.fst).map (fun t =>
        rowMean ((s₀ :: rest).map (fun s => lookupT (pct_changeT s) t))) := by
    simp [portfolioCol, portfolio_series, dfIndex, List.map_map]
  have hilen : i + 1 < (s₀.map Prod.fst).length := by simpa using hi
  rw [hcol, getD_map_of_lt _ _ _ hilen none 0]
  have hlook : ∀ s ∈ s₀ :: rest,
      lookupT (pct_changeT s) ((s₀.map Prod.fst).getD (i + 1) 0) =
        some (((s.map Prod.snd).getD (i + 1) 0 - (s.map Prod.snd).getD i 0) /
          (s.map Prod.snd).getD i 0) := by
    intro s hs
    have hkeys : s.map Prod.fst = s₀.map Prod.fst := hal s hs
    have hlen : s.length = s₀.length := by
      have := congrArg List.length hkeys
      simpa using this
    have hfst : (pct_changeT s).map Prod.fst = s.map Prod.fst := pct_changeT_fst s
    have hwlen : (pct_changeT s).length = s.length := by
      have := congrArg List.length hfst
      simpa using this
    have hkey : (s₀.map Prod.fst).getD (i + 1) 0 =
        ((pct_changeT s).map Prod.fst).getD (i + 1) 0 := by
      rw [hfst, hkeys]
    rw [hkey, lookupT_getD (pct_changeT s) (i + 1)
      (by rw [hfst, hkeys]; exact hnd) (by rw [hwlen, hlen]; exact hi),
      pct_changeT_snd s]
    exact pct_change_getD (s.map Prod.snd) i
      (by rw [List.length_map, hlen]; exact hi)
  rw [List.map_congr_left hlook]
  have hform : (s₀ :: rest).map (fun s =>
        some (((s.map Prod.snd).getD (i + 1) 0 - (s.map Prod.snd).getD i 0) /
          (s.map Prod.snd).getD i 0)) =
      ((s₀ :: rest).map (fun s =>
        ((s.map Prod.snd).getD (i + 1) 0 - (s.map Prod.snd).getD i 0) /
          (s.map Prod.snd).getD i 0)).map some := by
    rw [List.map_map]
    rfl
  rw [hform, rowMean_all_some _ (by simp)]

/-- C1 witness: two aligned two-point series with returns `1/10` and `2/10`;
the portfolio value at the second timestamp is their mean `3/20`. -/
theorem portfolio_mean_aligned_witness :
    (portfolioCol [[(0, 100), (1, 110)], [(0, 100), (1, 120)]]).getD 1 none =
      some (listMean ([[(0, 100), (1, 110)], [(0, 100), (1, 120)]].map
        (fun s : List (ℕ × ℚ) =>
          ((s.map Prod.snd).getD 1 0 - (s.map Prod.snd).getD 0 0) /
            (s.map Prod.snd).getD 0 0))) :=
  portfolio_mean_aligned [(0, 100), (1, 110)] [[(0, 100), (1, 120)]]
    (by decide) (by decide) 0 (by decide)

/-! ### Duplicate-ticker portfolio (claim C8) -/

theorem rowMean_pair (a : Option ℚ) : rowMean [a, a] = a := by
  cases a with
  | none => rfl
  | some x =>
    simp only [rowMean, List.filterMap_cons, id_eq, List.filterMap_nil]
    rw [if_neg (by simp)]
    simp only [List.sum_cons, List.sum_nil, List.length_cons, List.length_nil]
    norm_num

theorem lookupT_self_map (w : List (ℕ × Option ℚ)) (hnd : (w.map Prod.fst).Nodup) :
    (w.map Prod.fst).map (lookupT w) = w.map Prod.snd := by
  induction w with
  | nil => rfl
  | cons a rest ih =>
    rw [List.map_cons] at hnd
    have hsplit := List.nodup_cons.1 hnd
    simp only [List.map_cons]
    congr 1
    · exact lookupT_cons_self a rest
    · rw [List.map_congr_left (fun t ht => lookupT_cons_ne a rest t
        (fun he => hsplit.1 (he ▸ ht)))]
      exact ih hsplit.2

theorem portfolioCol_dup (S : List (ℕ × ℚ)) (hnd : (S.map Prod.fst).Nodup) :
    portfolioCol [S, S] = (pct_changeT S).map Prod.snd := by
  have h1 : portfolioCol [S, S] =
      (S.map Prod.fst).map (fun t => lookupT (pct_changeT S) t) := by
    simp only [portfolioCol, portfolio_series, dfIndex, List.map_map]
    apply List.map_congr_left
    intro t _
    simp only [Function.comp_apply, List.map_cons, List.map_nil]
    exact rowMean_pair _
  rw [h1, ← pct_changeT_fst S]
  exact lookupT_self_map (pct_changeT S) (by rw [pct_changeT_fst]; exact hnd)

theorem portfolio_daily_dup (S : List (ℕ × ℚ)) (hnd : (S.map Prod.fst).Nodup) :
    portfolio_daily [S, S] = daily_returns (S.map Prod.snd) := by
  rw [portfolio_daily, portfolioCol_dup S hnd, pct_changeT_snd]
  rfl

theorem cumprodSkipnaAux_all_some (l : List ℚ) :
    ∀ acc, cumprodSkipnaAux acc (l.map some) = (cumprodAux acc l).map some := by
  induction l with
  | nil => intro acc; rfl
  | cons x xs ih =>
    intro acc
    simp only [List.map_cons, cumprodSkipnaAux, cumprodAux]
    rw [ih]

theorem cumprodAux_getLast? (l : List ℚ) :
    ∀ acc : ℚ, l ≠ [] → (cumprodAux acc l).getLast? = some (acc * l.prod) := by
  induction l with
  | nil => intro acc h; exact absurd rfl h
  | cons x xs ih =>
    intro acc _
    cases xs with
    | nil => simp [cumprodAux]
    | cons y ys =>
      have hys := ih (acc * x) (List.cons_ne_nil y ys)
      simp only [cumprodAux] at hys ⊢
      rw [List.getLast?_cons_cons, hys]
      simp only [List.prod_cons]
      ring_nf

theorem map_option_map_zipWith (g : ℚ → ℚ) (f : ℚ → ℚ → ℚ) (p : List ℚ) :
    ∀ t : List ℚ,
      (List.zipWith (fun a b => some (f a b)) p t).map (Option.map g) =
        ((List.zipWith f p t).map g).map some := by
  induction p with
  | nil => intro t; simp
  | cons a p ih =>
    intro t
    cases t with
    | nil => simp
    | cons b t => simp [ih]

theorem daily_returns_cons_cons (x y : ℚ) (ys : List ℚ) :
    daily_returns (x :: y :: ys) = (y - x) / x :: daily_returns (y :: ys) := by
  rw [daily_returns_eq_zipWith, daily_returns_eq_zipWith]
  simp

theorem prod_one_add_returns (p : List ℚ) :
    (∀ x ∈ p, 0 < x) → ∀ hne : p ≠ [],
      ((daily_returns p).map (fun t => 1 + t)).prod = p.getLast hne / p.head hne := by
  induction p with
  | nil => intro _ hne; exact absurd rfl hne
  | cons x xs ih =>
    intro hp hne
    cases xs with
    | nil =>
      have hx : x ≠ 0 := ne_of_gt (hp x (by simp))
      simp [daily_returns, pct_change, dropna, div_self hx]
    | cons y ys =>
      have hx : x ≠ 0 := ne_of_gt (hp x (by simp))
      have hy : y ≠ 0 := ne_of_gt (hp y (by simp))
      rw [daily_returns_cons_cons]
      simp only [List.map_cons, List.prod_cons]
      rw [ih (fun t ht => hp t (by simp [ht])) (List.cons_ne_nil y ys)]
      rw [List.getLast_cons (List.cons_ne_nil y ys), List.head_cons, List.head_cons]
      have h1 : 1 + (y - x) / x = y / x := by field_simp
      rw [h1]
      field_simp
      ring

theorem getLast?_map_some (l : List ℚ) : (l.map some).getLast? = l.getLast?.map some := by
  induction l with
  | nil => rfl
  | cons a t ih =>
    cases t with
    | nil => rfl
    | cons b u =>
      simp only [List.map_cons] at ih ⊢
      rw [List.getLast?_cons_cons, List.getLast?_cons_cons]
      exact ih

theorem cumprodSkipna_total (w : List ℚ) (hwne : w ≠ []) :
    (cumprodSkipnaAux 1 (none :: w.map some)).getLast? = some (some (1 * w.prod)) := by
  have h1 : cumprodSkipnaAux 1 (none :: w.map some) =
      none :: (cumprodAux 1 w).map some := by
    rw [show cumprodSkipnaAux 1 (none :: w.map some) =
      none :: cumprodSkipnaAux 1 (w.map some) from rfl, cumprodSkipnaAux_all_some]
  rw [h1]
  obtain ⟨w₀, w', rfl⟩ : ∃ w₀ w', w = w₀ :: w' := by
    cases w with
    | nil => exact absurd rfl hwne
    | cons a l => exact ⟨a, l, rfl⟩
  have h2 : (cumprodAux 1 (w₀ :: w')).map some =
      some (1 * w₀) :: (cumprodAux (1 * w₀) w').map some := rfl
  rw [h2, List.getLast?_cons_cons, ← h2]
  rw [getLast?_map_some, cumprodAux_getLast? _ 1 (List.cons_ne_nil w₀ w')]
  rfl

/-- C8 counterexample: with a single shared price point the portfolio total
return is `NaN` (the whole cumulative-product column is `NaN`) while the
single-asset summary reports a total return of `0`. -/
theorem portfolio_duplicate_single_point_cex :
    portfolio_total_return [[(0, (100 : ℚ))], [(0, 100)]] = none ∧
    (calculate_metrics (some [100])).map Metrics.total_return = some 0 := by
  constructor
  · rfl
  · simp [calculate_metrics]

/-- C8 (amended): for a price series with at least two positive closes over
duplicate-free timestamps, the equal-weight portfolio of two tickers mapped
to that same series reproduces the single-asset summary exactly: same total
return, volatility, Sharpe ratio and max drawdown.  (With only one price
point the two sides differ: portfolio total return is `NaN`, single-asset
total return is 0.) -/
theorem portfolio_duplicate_spec (S : List (ℕ × ℚ)) (hnd : (S.map Prod.fst).Nodup)
    (hp : ∀ q ∈ S, 0 < q.2) (h2 : 2 ≤ S.length) :
    ∃ m, calculate_metrics (some (S.map Prod.snd)) = some m ∧
      portfolio_total_return [S, S] = some m.total_return ∧
      portfolio_volatility [S, S] = m.volatility ∧
      portfolio_sharpe [S, S] = m.sharpe_ratio ∧
      portfolio_max_dd [S, S] = m.max_drawdown := by
  have hpd : portfolio_daily [S, S] = daily_returns (S.map Prod.snd) :=
    portfolio_daily_dup S hnd
  have hppos : ∀ v ∈ S.map Prod.snd, 0 < v := by
    intro v hv
    obtain ⟨q, hq, rfl⟩ := List.mem_map.1 hv
    exact hp q hq
  have hplen : (S.map Prod.snd).length = S.length := List.length_map S Prod.snd
  obtain ⟨x, xs, hxxs⟩ : ∃ x xs, S.map Prod.snd = x :: xs := by
    cases hS : S.map Prod.snd with
    | nil =>
      rw [hS] at hplen
      simp at hplen
      omega
    | cons a l => exact ⟨a, l, rfl⟩
  have hxsne : xs ≠ [] := by
    intro h
    rw [h] at hxxs
    rw [hxxs] at hplen
    simp at hplen
    omega
  have hx0 : (0 : ℚ) < x := by
    have := hppos x (by rw [hxxs]; exact List.mem_cons_self x xs)
    exact this
  rw [hxxs] at hpd hppos
  rw [hxxs]
  refine ⟨_, rfl, ?_, ?_, ?_, ?_⟩
  · -- total return
    have hcol : portfolioCol [S, S] = pct_change (x :: xs) := by
      rw [portfolioCol_dup S hnd, pct_changeT_snd, hxxs]
    have hdr : List.zipWith (fun a b => (b - a) / a) (x :: xs) xs =
        daily_returns (x :: xs) := by
      rw [daily_returns_eq_zipWith]
      rfl
    have hrne : daily_returns (x :: xs) ≠ [] := by
      intro h
      have hlen := daily_returns_length (x :: xs)
      rw [h] at hlen
      simp only [List.length_nil, List.length_cons, Nat.add_sub_cancel] at hlen
      exact hxsne (List.length_eq_zero.1 hlen.symm)
    have hwne : (daily_returns (x :: xs)).map (fun t => 1 + t) ≠ [] :=
      fun h => hrne (List.map_eq_nil_iff.1 h)
    have hprod : ((daily_returns (x :: xs)).map (fun t => 1 + t)).prod =
        (x :: xs).getLast (List.cons_ne_nil x xs) / x := by
      have := prod_one_add_returns (x :: xs) hppos (List.cons_ne_nil x xs)
      rw [List.head_cons] at this
      exact this
    rw [portfolio_total_return, hcol]
    rw [show pct_change (x :: xs) =
      none :: List.zipWith (fun a b => some ((b - a) / a)) (x :: xs) xs from rfl]
    simp only [List.map_cons, Option.map_none']
    rw [map_option_map_zipWith, hdr]
    rw [cumprodSkipna_total _ hwne]
    show some ((1 * ((daily_returns (x :: xs)).map (fun t => 1 + t)).prod - 1) * 100) =
      some (((x :: xs).getLast (List.cons_ne_nil x xs) - x) / x * 100)
    rw [one_mul, hprod]
    congr 1
    field_simp
  · -- volatility
    rw [portfolio_volatility, hpd]
  · -- sharpe
    rw [portfolio_sharpe, hpd]
  · -- max drawdown
    rw [portfolio_max_dd, hpd]

/-- C8 witness at the concrete two-point series `[(0,100), (1,110)]`. -/
theorem portfolio_duplicate_spec_witness :
    ∃ m, calculate_metrics (some ([(0, 100), (1, 110)].map Prod.snd)) = some m ∧
      portfolio_total_return [[(0, 100), (1, 110)], [(0, 100), (1, 110)]] =
        some m.total_return ∧
      portfolio_volatility [[(0, 100), (1, 110)], [(0, 100), (1, 110)]] = m.volatility ∧
      portfolio_sharpe [[(0, 100), (1, 110)], [(0, 100), (1, 110)]] = m.sharpe_ratio ∧
      portfolio_max_dd [[(0, 100), (1, 110)], [(0, 100), (1, 110)]] = m.max_drawdown :=
  portfolio_duplicate_spec [(0, 100), (1, 110)] (by decide) (by decide) (by decide)

/-! ### Correlation matrix (claim C9) -/

theorem pairRows_swap (x : List (Option ℚ)) :
    ∀ y : List (Option ℚ),
      pairRows y x = (pairRows x y).map (fun ab => (ab.2, ab.1)) := by
  induction x with
  | nil => intro y; cases y <;> rfl
  | cons a x ih =>
    intro y
    cases y with
    | nil => rfl
    | cons b y =>
      cases a with
      | none =>
        cases b with
        | none => exact ih y
        | some bv => exact ih y
      | some av =>
        cases b with
        | none => exact ih y
        | some bv => exact congrArg (List.cons (bv, av)) (ih y)

theorem map_swap_fst (ps : List (ℚ × ℚ)) :
    (ps.map (fun ab => (ab.2, ab.1))).map Prod.fst = ps.map Prod.snd := by
  rw [List.map_map]
  exact List.map_congr_left (fun ab _ => rfl)

theorem map_swap_snd (ps : List (ℚ × ℚ)) :
    (ps.map (fun ab => (ab.2, ab.1))).map Prod.snd = ps.map Prod.fst := by
  rw [List.map_map]
  exact List.map_congr_left (fun ab _ => rfl)

theorem sxy_swap (ps : List (ℚ × ℚ)) :
    sxy (ps.map (fun ab => (ab.2, ab.1))) = sxy ps := by
  have hfst : List.map (Prod.fst ∘ fun ab : ℚ × ℚ => (ab.2, ab.1)) ps =
      List.map Prod.snd ps := List.map_congr_left (fun ab _ => rfl)
  have hsnd : List.map (Prod.snd ∘ fun ab : ℚ × ℚ => (ab.2, ab.1)) ps =
      List.map Prod.fst ps := List.map_congr_left (fun ab _ => rfl)
  simp only [sxy, List.map_map, hfst, hsnd]
  congr 1
  apply List.map_congr_left
  intro ab _
  simp only [Function.comp_apply]
  ring

theorem pearson_symm (x y : List (Option ℚ)) : pearson x y = pearson y x := by
  simp only [pearson]
  rw [pairRows_swap x y, map_swap_fst, map_swap_snd, sxy_swap, mul_comm]

theorem pairRows_self (x : List (Option ℚ)) :
    pairRows x x = (dropna x).map (fun a => (a, a)) := by
  induction x with
  | nil => rfl
  | cons a t ih =>
    cases a with
    | none => exact ih
    | some v => exact congrArg (List.cons (v, v)) ih

theorem map_pair_self_fst (l : List ℚ) :
    ((l.map (fun a => (a, a))).map Prod.fst) = l := by
  rw [List.map_map]
  exact List.map_id'' (fun a => rfl) l

theorem map_pair_self_snd (l : List ℚ) :
    ((l.map (fun a => (a, a))).map Prod.snd) = l := by
  rw [List.map_map]
  exact List.map_id'' (fun a => rfl) l

theorem sxy_self (l : List ℚ) : sxy (l.map (fun a => (a, a))) = ssq l := by
  have hfst : List.map (Prod.fst ∘ fun a : ℚ => (a, a)) l = l :=
    List.map_id'' (fun a => rfl) l
  have hsnd : List.map (Prod.snd ∘ fun a : ℚ => (a, a)) l = l :=
    List.map_id'' (fun a => rfl) l
  simp only [sxy, List.map_map, hfst, hsnd, ssq]
  congr 1
  apply List.map_congr_left
  intro a _
  simp only [Function.comp_apply]
  ring

theorem ssq_nonneg (l : List ℚ) : 0 ≤ ssq l := by
  unfold ssq
  apply List.sum_nonneg
  intro a ha
  obtain ⟨b, _, rfl⟩ := List.mem_map.1 ha
  positivity

theorem pearson_self (x : List (Option ℚ)) (h : ssq (dropna x) ≠ 0) :
    pearson x x = some 1 := by
  simp only [pearson, pairRows_self, map_pair_self_fst, map_pair_self_snd, sxy_self]
  have hnn : (0 : ℝ) ≤ ((ssq (dropna x) : ℚ) : ℝ) := by
    exact_mod_cast ssq_nonneg (dropna x)
  have hden : Real.sqrt ((ssq (dropna x) * ssq (dropna x) : ℚ) : ℝ) =
      ((ssq (dropna x) : ℚ) : ℝ) := by
    push_cast
    rw [show ((ssq (dropna x) : ℚ) : ℝ) * ((ssq (dropna x) : ℚ) : ℝ) =
      ((ssq (dropna x) : ℚ) : ℝ) ^ 2 by ring]
    exact Real.sqrt_sq hnn
  rw [hden, if_neg (by exact_mod_cast h)]
  rw [div_self (by exact_mod_cast h)]

/-- C9 counterexample: a constant price series has zero-variance returns, so
pandas pairwise Pearson divisor is 0 and the DIAGONAL entry is `NaN`, not
the 1.0 the claim asserts for every aligned input. -/
theorem correlation_constant_cex :
    correlation [[(0, (100 : ℚ)), (1, 100), (2, 100)],
        [(0, 100), (1, 100), (2, 100)]] 0 0 = none ∧
    correlation [[(0, (100 : ℚ)), (1, 100), (2, 100)],
        [(0, 100), (1, 100), (2, 100)]] 0 0 ≠ some 1 := by
  have hcol : (dfColumns [[(0, (100 : ℚ)), (1, 100), (2, 100)],
      [(0, 100), (1, 100), (2, 100)]]).getD 0 [] = [none, some 0, some 0] := by
    simp [dfColumns, dfIndex, pct_changeT, pct_change, lookupT, List.find?]
  have h : correlation [[(0, (100 : ℚ)), (1, 100), (2, 100)],
      [(0, 100), (1, 100), (2, 100)]] 0 0 = none := by
    rw [correlation, hcol]
    simp [pearson, pairRows, sxy, ssq, listMean]
  exact ⟨h, by rw [h]; simp⟩

/-- C9 (amended): the correlation matrix entry function is symmetric for any
input; a diagonal entry is 1.0 whenever that column has nonzero variance over
its present rows (and `NaN` when the variance is zero — see the
counterexample); two in-range tickers carrying the same series give pairwise
correlation 1.0 under the same nonzero-variance proviso. -/
theorem correlation_spec_thm (sl : List (List (ℕ × ℚ))) (i j : ℕ) :
    correlation sl i j = correlation sl j i ∧
    (ssq (dropna ((dfColumns sl).getD i [])) ≠ 0 → correlation sl i i = some 1) ∧
    (i < sl.length → j < sl.length → sl.getD i [] = sl.getD j [] →
      ssq (dropna ((dfColumns sl).getD i [])) ≠ 0 → correlation sl i j = some 1) := by
  refine ⟨pearson_symm _ _, fun h => pearson_self _ h, ?_⟩
  intro hi hj hij h
  have hcols : (dfColumns sl).getD i [] = (dfColumns sl).getD j [] := by
    rw [dfColumns, getD_map_of_lt _ sl i hi [] [], getD_map_of_lt _ sl j hj [] [], hij]
  rw [correlation, hcols]
  exact pearson_self _ (hcols ▸ h)

/-- C9 witness: two tickers fed the same non-constant series; the pair
correlates at 1.0 and the matrix is symmetric there. -/
theorem correlation_spec_witness :
    correlation [[(0, (100 : ℚ)), (1, 110), (2, 100)],
        [(0, 100), (1, 110), (2, 100)]] 0 1 =
      correlation [[(0, (100 : ℚ)), (1, 110), (2, 100)],
        [(0, 100), (1, 110), (2, 100)]] 1 0 ∧
    correlation [[(0, (100 : ℚ)), (1, 110), (2, 100)],
        [(0, 100), (1, 110), (2, 100)]] 0 1 = some 1 := by
  have hcol : (dfColumns [[(0, (100 : ℚ)), (1, 110), (2, 100)],
      [(0, 100), (1, 110), (2, 100)]]).getD 0 [] =
      [none, some (1 / 10), some (-(1 : ℚ) / 11)] := by
    simp [dfColumns, dfIndex, pct_changeT, pct_change, lookupT, List.find?]
    norm_num
  refine ⟨(correlation_spec_thm [[(0, (100 : ℚ)), (1, 110), (2, 100)],
      [(0, 100), (1, 110), (2, 100)]] 0 1).1,
    (correlation_spec_thm [[(0, (100 : ℚ)), (1, 110), (2, 100)],
      [(0, 100), (1, 110), (2, 100)]] 0 1).2.2 (by decide) (by decide) (by decide) ?_⟩
  rw [hcol]
  norm_num [dropna, ssq, listMean, List.filterMap_cons]


